import Mathlib

/-!
Verification development for the rust_gpss discrete-event simulation
interpreter (src/interpreter.rs).  The Rust code is shallowly embedded:
pure functions become Lean functions, the mutually recursive dispatch
loop becomes a fuel-indexed step function, machine integers become
Nat/Int, and Rust panics become explicit error values.
-/

set_option maxRecDepth 4000

namespace Gpss

/-!  ## Value model

`GpssType` mirrors the Rust enum generated by `gpss_type_impl!`:
`Boolean(bool)`, `Float(f32)`, `Integer(i32)`, `Facility(u8)`,
`UnsignedInteger(u32)`.  The `f32` payload is modelled by `F32` below:
an exact value (a rational) or one of the IEEE-754 special values.
IEEE rounding of arithmetic is not modelled (the only arithmetic the
interpreter performs on floats is one multiplication by 1000, see
`fraction_time_to_int`); sign/NaN/infinity classification and the
ordered comparison of values, which is all the claims depend on, is
modelled faithfully from IEEE-754 semantics. -/

inductive F32 where
  | finite (val : ℚ)
  | inf
  | neginf
  | nan
deriving DecidableEq, Repr

/-- Rust `f32` equality (IEEE-754): `NaN` is equal to nothing, the other
values compare by magnitude. -/
def f32Eq : F32 → F32 → Bool
  | .nan, _ => false
  | _, .nan => false
  | .finite a, .finite b => a = b
  | .inf, .inf => true
  | .neginf, .neginf => true
  | _, _ => false

/-- Comparison of rationals producing an `Ordering`, computed by
cross-multiplication of the (positive-denominator) representations —
equivalent to comparing the rational values. -/
def ratCompare (a b : ℚ) : Ordering :=
  if a.num * b.den < b.num * a.den then .lt
  else if a.num * b.den = b.num * a.den then .eq
  else .gt

/-- Rust `f32::partial_cmp` (IEEE-754): `none` iff either operand is
`NaN`, otherwise the total order `-inf < finite < inf`. -/
def f32Cmp : F32 → F32 → Option Ordering
  | .nan, _ => none
  | _, .nan => none
  | .neginf, .neginf => some .eq
  | .neginf, _ => some .lt
  | _, .neginf => some .gt
  | .inf, .inf => some .eq
  | .inf, _ => some .gt
  | _, .inf => some .lt
  | .finite a, .finite b => some (ratCompare a b)

/-- Types you can use as properties of transacts or as variables
(the Rust enum `GpssType`).  Payloads: `i32` as `Int`, `u8`/`u32` as
`Nat`, `f32` as `F32`. -/
inductive GpssType where
  | Boolean (b : Bool)
  | Float (f : F32)
  | Integer (n : Int)
  | Facility (n : Nat)
  | UnsignedInteger (n : Nat)
deriving DecidableEq, Repr

/-- Tag of a `GpssType` value, used to state cross-tag claims. -/
def tagOf : GpssType → Nat
  | .Boolean _ => 0
  | .Float _ => 1
  | .Integer _ => 2
  | .Facility _ => 3
  | .UnsignedInteger _ => 4

/-- Result of a Rust function that can panic: either a value or a panic.
(`panic` carries no payload; the Rust messages are documentation.) -/
inductive PanicOr (α : Type) where
  | ok (a : α)
  | panic
deriving DecidableEq, Repr

/-- The generated `impl PartialEq for GpssType`: same-tag values compare
their payloads, different tags hit the `panic!("Comparing ...")` arm. -/
def gpssEq : GpssType → GpssType → PanicOr Bool
  | .Boolean a, .Boolean b => .ok (a == b)
  | .Boolean _, _ => .panic
  | .Float a, .Float b => .ok (f32Eq a b)
  | .Float _, _ => .panic
  | .Integer a, .Integer b => .ok (a == b)
  | .Integer _, _ => .panic
  | .Facility a, .Facility b => .ok (a == b)
  | .Facility _, _ => .panic
  | .UnsignedInteger a, .UnsignedInteger b => .ok (a == b)
  | .UnsignedInteger _, _ => .panic

/-- The generated `impl PartialOrd for GpssType`: same-tag values use
the payload `partial_cmp`, different tags return `None` (a normal
result — this arm does not panic).  The codomain is `PanicOr` so that
the (absent) possibility of a panic is expressible in claims. -/
def gpssPartialCmp : GpssType → GpssType → PanicOr (Option Ordering)
  | .Boolean a, .Boolean b => .ok (some (compare a b))
  | .Boolean _, _ => .ok none
  | .Float a, .Float b => .ok (f32Cmp a b)
  | .Float _, _ => .ok none
  | .Integer a, .Integer b => .ok (some (compare a b))
  | .Integer _, _ => .ok none
  | .Facility a, .Facility b => .ok (some (compare a b))
  | .Facility _, _ => .ok none
  | .UnsignedInteger a, .UnsignedInteger b => .ok (some (compare a b))
  | .UnsignedInteger _, _ => .ok none

/-- Rust `GpssType::empty()`. -/
def GpssType.empty : GpssType := .Boolean false

/-- Transact: 16 `GpssType` properties (Rust `struct Transact`). -/
structure Transact where
  params : List GpssType
deriving DecidableEq, Repr

/-- Rust `Transact::empty()`: all 16 slots `Boolean(false)`. -/
def Transact.empty : Transact := ⟨List.replicate 16 GpssType.empty⟩

/-!  ## Instructions and events -/

/-- Rust `enum Instructions`.  Suspending instructions carry the program
counter `begin` from which the argument-preparation code is replayed. -/
inductive Instr where
  | Generate (begin_ : Nat)
  | Advance (begin_ : Nat)
  | Terminate (begin_ : Nat)
  | Print (var_id : Nat)
  | PrintClock
  | Transfer (instruction_id : Nat)
  | TestVar (else_goto : Nat)
  | SaveValue (var_id : Nat)
  | Push (var_id : Nat)
deriving DecidableEq, Repr

/-- Rust `struct Event`. -/
structure Event where
  instruction_id : Nat
  wake_time : Nat
  transact : Option Transact
deriving DecidableEq, Repr

/-- Rust `impl Ord for Event`: `other.wake_time.cmp(&self.wake_time)`,
i.e. the ordering is REVERSED so that `BinaryHeap` (a max-heap) pops
the event with the smallest `wake_time`.  `a ≤ b` in this order iff
`b.wake_time ≤ a.wake_time`. -/
def eventLe (a b : Event) : Bool := b.wake_time ≤ a.wake_time

def defaultEvent : Event := ⟨0, 0, none⟩

/-- Element of the heap's backing vector at index `i` (garbage value if
out of bounds; the algorithms below only read in-bounds indices). -/
def geti (l : List Event) (i : Nat) : Event := l.getD i defaultEvent

/-!  ## The future-event set

The source stores events in `std::collections::BinaryHeap<Event>`.
That container is external library code; it is modelled here from its
currently shipped implementation: `push` appends and sifts up
(`sift_up` with hole semantics, stopping as soon as the new element is
`<=` the parent), `pop` swap-removes the root and re-heapifies with
`sift_down_to_bottom` (move the hole along the greater-child path all
the way to the bottom, then sift the displaced element up).  The `fuel`
argument makes the recursion structural; the wrappers supply fuel that
is provably sufficient. -/

/-- Rust `BinaryHeap::sift_up` (hole semantics, `start = 0`): the hole
is at `h`, `elem` is in hand; move up while `elem` is greater than the
parent. -/
def siftUp : Nat → List Event → Event → Nat → List Event
  | 0, data, elem, h => data.set h elem
  | fuel+1, data, elem, h =>
    if h = 0 then data.set h elem
    else
      let parent := (h - 1) / 2
      if eventLe elem (geti data parent) then data.set h elem
      else siftUp fuel (data.set h (geti data parent)) elem parent

/-- Rust `BinaryHeap::sift_down_to_bottom` (hole semantics): the hole is
at `h`, `elem` in hand, `en` is the length; walk the hole down along
the greater-child path (ties choose the right child, matching
`child += (hole.get(child) <= hole.get(child + 1)) as usize`), then
sift `elem` up from the final hole position. -/
def siftDown : Nat → List Event → Event → Nat → Nat → List Event
  | 0, data, elem, _, h => data.set h elem
  | fuel+1, data, elem, en, h =>
    let child := 2*h+1
    if child + 1 < en then
      let child := if eventLe (geti data child) (geti data (child+1)) then child+1 else child
      siftDown fuel (data.set h (geti data child)) elem en child
    else if child + 1 = en then
      siftUp (en+1) (data.set h (geti data child)) elem child
    else
      siftUp (en+1) data elem h

/-- Rust `BinaryHeap::push`: append, then sift the new element up from
the last position. -/
def heapPush (data : List Event) (e : Event) : List Event :=
  siftUp (data.length + 1) (data ++ [e]) e data.length

/-- Rust `BinaryHeap::pop`: `Vec::pop` the last element; if the heap is
still non-empty swap it with the root (which is returned) and sift down
from the root.  Position `0` of `rest` is stale below (the algorithm
overwrites it before ever reading it), matching the hole semantics. -/
def heapPop (data : List Event) : Option (Event × List Event) :=
  match data with
  | [] => none
  | _ :: _ =>
    let n := data.length
    let item := geti data (n - 1)
    let rest := data.take (n - 1)
    if rest.length = 0 then some (item, rest)
    else some (geti rest 0, siftDown (rest.length + 1) rest item rest.length 0)

/-!  ## Interpreter state -/

/-- Errors: Rust panics of the interpreter, tagged with the spec's
error kinds.  `stackUnderflow` = `expect("Stack is empty ...")`;
`typeMismatch` = the `From<GpssType>` conversion panics;
`memoryHole` = `panic!("Cannot access variable ...")` and the
out-of-bounds `memory[i]` index panics; `startUnderflow` = the `u32`
subtraction `start_entities -= count` overflowing (a Rust arithmetic
error); `badInstrIndex` = the `instructions[i]` index panic. -/
inductive VMError where
  | stackUnderflow
  | typeMismatch
  | memoryHole
  | startUnderflow
  | badInstrIndex
deriving DecidableEq, Repr

/-- Result of running a piece of the interpreter: a new state, a panic,
or out of fuel (`oom` is an artifact of the embedding: the Rust loops
can run forever, the embedding is indexed by fuel). -/
inductive VMRes (α : Type) where
  | ok (a : α)
  | err (e : VMError)
  | oom

/-- Rust `struct Interpreter`, plus an injected RNG
(`rand::random::<i32>()` is modelled as reading the stream `rng` at
position `rng_idx` and advancing the index).  The operand stack and the
heap's backing vector grow at the list head/end respectively: `stack`
keeps the top of the Rust `Vec` at the head, `events` is the heap's
backing vector in order. -/
structure VMState where
  instructions : List Instr
  current_instruction : Nat
  current_transact : Option Transact
  start_entities : Nat
  current_time : Nat
  events : List Event
  memory : List GpssType
  stack : List GpssType
  rng : Nat → Int
  rng_idx : Nat

/-- Rust `Interpreter::build_interpreter`. -/
def build_interpreter (instructions : List Instr) (memory : List GpssType)
    (rng : Nat → Int) : VMState :=
  { instructions := instructions
    current_instruction := 0
    current_transact := none
    start_entities := 15
    current_time := 0
    events := []
    memory := memory
    stack := []
    rng := rng
    rng_idx := 0 }

/-!  ## Pure helpers (straight from the source) -/

/-- Rust `fraction_time_to_int`: `(t * 1000.0) as u64`.  The `as` cast
truncates toward zero and saturates (Rust reference semantics:
`NaN` casts to `0`, values below `0` to `0`, values above `u64::MAX`
to `u64::MAX`).  The multiplication by 1000 is exact here (f32
rounding not modelled). -/
def fraction_time_to_int (t : F32) : Nat :=
  match t with
  | .nan => 0
  | .neginf => 0
  | .inf => 2^64 - 1
  | .finite q =>
    -- the exact product `q * 1000` is the rational `q.num * 1000 / q.den`;
    -- truncation toward zero of a non-positive value saturates to 0, of a
    -- positive one it is Nat division, capped at `u64::MAX`
    if q.num ≤ 0 then 0 else min ((q.num.toNat * 1000) / q.den) (2^64 - 1)

/-- The generated `From<GpssType> for f32`: panics unless `Float`. -/
def gpssToF32 : GpssType → VMRes F32
  | .Float f => .ok f
  | _ => .err .typeMismatch

/-- The generated `From<GpssType> for u32`: panics unless
`UnsignedInteger`. -/
def gpssToU32 : GpssType → VMRes Nat
  | .UnsignedInteger n => .ok n
  | _ => .err .typeMismatch

/-- The generated `From<GpssType> for bool`: panics unless `Boolean`. -/
def gpssToBool : GpssType → VMRes Bool
  | .Boolean b => .ok b
  | _ => .err .typeMismatch

/-- Rust `Interpreter::stack_pop`: pop the operand stack, panic if
empty. -/
def stack_pop (s : VMState) : VMRes (GpssType × VMState) :=
  match s.stack with
  | [] => .err .stackUnderflow
  | v :: rest => .ok (v, { s with stack := rest })

/-- Rust `Interpreter::stack_pop_time`:
`Self::fraction_time_to_int(self.stack_pop().into())`. -/
def stack_pop_time (s : VMState) : VMRes (Nat × VMState) :=
  match stack_pop s with
  | .ok (v, s') =>
    match gpssToF32 v with
    | .ok f => .ok (fraction_time_to_int f, s')
    | .err e => .err e
    | .oom => .oom
  | .err e => .err e
  | .oom => .oom

/-- Rust `Interpreter::create_event`: push onto the future-event set. -/
def create_event (s : VMState) (instruction_id : Nat) (wake_time : Nat)
    (transact : Option Transact) : VMState :=
  { s with events := heapPush s.events ⟨instruction_id, wake_time, transact⟩ }

/-- Rust `Interpreter::print`: reads `memory[var_id]` (panics if out of
bounds), prints it (output not modelled), `pc += 1`. -/
def print (s : VMState) (var_id : Nat) : VMRes VMState :=
  match s.memory.get? var_id with
  | some _ => .ok { s with current_instruction := s.current_instruction + 1 }
  | none => .err .memoryHole

/-- Rust `Interpreter::print_clock`: prints the clock, `pc += 1`. -/
def print_clock (s : VMState) : VMRes VMState :=
  .ok { s with current_instruction := s.current_instruction + 1 }

/-- Rust `Interpreter::transfer`: unconditional jump. -/
def transfer (s : VMState) (instruction_id : Nat) : VMState :=
  { s with current_instruction := instruction_id }

/-- Rust `Interpreter::test_var`: fall through on true, jump on
false. -/
def test_var (s : VMState) (else_goto : Nat) (cond_result : Bool) : VMState :=
  if cond_result then { s with current_instruction := s.current_instruction + 1 }
  else { s with current_instruction := else_goto }

/-- Rust `Interpreter::save_value`: overwrite if `var_id < len`, append
if `var_id == len`, panic (`"Cannot access variable"`) otherwise; then
`pc += 1`. -/
def save_value (s : VMState) (var_id : Nat) (object : GpssType) : VMRes VMState :=
  if s.memory.length > var_id then
    .ok { s with memory := s.memory.set var_id object
                 current_instruction := s.current_instruction + 1 }
  else if s.memory.length = var_id then
    .ok { s with memory := s.memory ++ [object]
                 current_instruction := s.current_instruction + 1 }
  else .err .memoryHole

/-- Rust `Interpreter::push`: reads `memory[var_id]` (panics if out of
bounds), pushes it, `pc += 1`. -/
def push (s : VMState) (var_id : Nat) : VMRes VMState :=
  match s.memory.get? var_id with
  | some v => .ok { s with stack := v :: s.stack
                           current_instruction := s.current_instruction + 1 }
  | none => .err .memoryHole

/-!  ## The re-entrant dispatch loop

The Rust functions `process_instruction`, `generate`, `advance`,
`terminate`, `perform_closest`, `process_from_to` and `process` are
mutually recursive and can diverge.  They are embedded as one
fuel-indexed step function `vmRun` over a `Call` datatype naming the
entry point; each is then recovered as a wrapper.  A fuel tick is
consumed whenever control passes from one of these functions to
another (or loops). -/

/-- Entry points of the mutually recursive interpreter core. -/
inductive Call where
  | instr (s : VMState)
  | gen (s : VMState) (time : Nat)
  | adv (s : VMState) (time : Nat)
  | term (s : VMState) (count : Nat)
  | closest (s : VMState)
  | fromTo (s : VMState) (start fin : Nat)
  | loop (s : VMState) (fin : Nat)
  | proc (s : VMState)

/-- The interpreter core.  Each arm is a line-by-line translation of
the corresponding Rust function; see the wrappers below for the
mapping. -/
def vmRun : Nat → Call → VMRes VMState
  | 0, _ => .oom
  | fuel+1, c =>
    match c with
    | .instr s =>
      -- Rust `process_instruction`: dispatch on `instructions[pc]`.
      match s.instructions.get? s.current_instruction with
      | none => .err .badInstrIndex
      | some (.Generate _) =>
        match stack_pop_time s with
        | .ok (time, s1) => vmRun fuel (.gen s1 time)
        | .err e => .err e
        | .oom => .oom
      | some (.Advance _) =>
        match stack_pop_time s with
        | .ok (time, s1) => vmRun fuel (.adv s1 time)
        | .err e => .err e
        | .oom => .oom
      | some (.Terminate _) =>
        match stack_pop s with
        | .ok (v, s1) =>
          match gpssToU32 v with
          | .ok count => vmRun fuel (.term s1 count)
          | .err e => .err e
          | .oom => .oom
        | .err e => .err e
        | .oom => .oom
      | some (.Print var_id) => print s var_id
      | some .PrintClock => print_clock s
      | some (.Transfer instruction_id) => .ok (transfer s instruction_id)
      | some (.TestVar else_goto) =>
        match stack_pop s with
        | .ok (v, s1) =>
          match gpssToBool v with
          | .ok b => .ok (test_var s1 else_goto b)
          | .err e => .err e
          | .oom => .oom
        | .err e => .err e
        | .oom => .oom
      | some (.SaveValue var_id) =>
        match stack_pop s with
        | .ok (v, s1) => save_value s1 var_id v
        | .err e => .err e
        | .oom => .oom
      | some (.Push var_id) => push s var_id
    | .gen s time =>
      -- Rust `generate`: schedule at `current_instruction` with no
      -- transact, then perform the closest event.
      vmRun fuel (.closest (create_event s s.current_instruction
        (s.current_time + time) none))
    | .adv s time =>
      -- Rust `advance`: like `generate` but the event carries a clone
      -- of the current transact.
      vmRun fuel (.closest (create_event s s.current_instruction
        (s.current_time + time) s.current_transact))
    | .term s count =>
      -- Rust `terminate`: `start_entities -= count` (u32 subtraction;
      -- panics on underflow), clear the transact, then either perform
      -- the closest event or advance the pc.
      if count ≤ s.start_entities then
        let s1 := { s with start_entities := s.start_entities - count
                           current_transact := none }
        if 0 < s1.events.length ∧ 0 < s1.start_entities then
          vmRun fuel (.closest s1)
        else .ok { s1 with current_instruction := s1.current_instruction + 1 }
      else .err .startUnderflow
    | .closest s =>
      -- Rust `perform_closest`.
      match heapPop s.events with
      | none => .ok s
      | some (e, rest) =>
        let s1 := { s with current_time := e.wake_time
                           current_transact := e.transact
                           events := rest }
        match s1.instructions.get? e.instruction_id with
        | none => .err .badInstrIndex
        | some i =>
          -- first `match self.instructions[...]`: replay the prefix
          -- for suspending instructions, early-return otherwise.
          match i with
          | .Generate begin_ | .Advance begin_ =>
            match vmRun fuel (.fromTo s1 begin_ e.instruction_id) with
            | .ok s2 =>
              -- second `match self.instructions[...]` of the source
              match s2.instructions.get? e.instruction_id with
              | none => .err .badInstrIndex
              | some (.Generate _) =>
                match stack_pop_time s2 with
                | .ok (time, s3) =>
                  let s4 := { s3 with
                    current_transact := some ⟨Transact.empty.params.set 0
                      (.Integer (s3.rng s3.rng_idx))⟩
                    rng_idx := s3.rng_idx + 1 }
                  .ok { create_event s4 e.instruction_id
                          (s4.current_time + time) none with
                        current_instruction := e.instruction_id + 1 }
                | .err er => .err er
                | .oom => .oom
              | some _ => .ok { s2 with current_instruction := e.instruction_id + 1 }
            | r => r
          | _ =>
            -- the `_ => return` arm of the first match: non-suspending
            -- events only advance the clock and install the transact.
            .ok s1
    | .fromTo s start fin =>
      -- Rust `process_from_to`: set pc to `start`, then loop.
      vmRun fuel (.loop { s with current_instruction := start } fin)
    | .loop s fin =>
      -- the `while self.current_instruction < end` loop of
      -- `process_from_to`: NOTE the extra `pc += 1` after each
      -- `process_instruction()` (which itself advances the pc).
      if s.current_instruction < fin then
        match vmRun fuel (.instr s) with
        | .ok s1 => vmRun fuel
            (.loop { s1 with current_instruction := s1.current_instruction + 1 } fin)
        | r => r
      else .ok s
    | .proc s =>
      -- Rust `process`: the outer interpretation loop.
      if 0 < s.start_entities ∧ s.current_instruction < s.instructions.length then
        match vmRun fuel (.instr s) with
        | .ok s1 => vmRun fuel (.proc s1)
        | r => r
      else .ok s

/-- Rust `Interpreter::process_instruction`. -/
def process_instruction (fuel : Nat) (s : VMState) : VMRes VMState :=
  vmRun fuel (.instr s)

/-- Rust `Interpreter::generate`. -/
def generate (fuel : Nat) (s : VMState) (time : Nat) : VMRes VMState :=
  vmRun fuel (.gen s time)

/-- Rust `Interpreter::advance`. -/
def advance (fuel : Nat) (s : VMState) (time : Nat) : VMRes VMState :=
  vmRun fuel (.adv s time)

/-- Rust `Interpreter::terminate`. -/
def terminate (fuel : Nat) (s : VMState) (count : Nat) : VMRes VMState :=
  vmRun fuel (.term s count)

/-- Rust `Interpreter::perform_closest`. -/
def perform_closest (fuel : Nat) (s : VMState) : VMRes VMState :=
  vmRun fuel (.closest s)

/-- Rust `Interpreter::process_from_to`. -/
def process_from_to (fuel : Nat) (s : VMState) (start fin : Nat) : VMRes VMState :=
  vmRun fuel (.fromTo s start fin)

/-- Rust `Interpreter::process`. -/
def process (fuel : Nat) (s : VMState) : VMRes VMState :=
  vmRun fuel (.proc s)

/-!  ## Concrete states used to settle individual claims -/

/-- Program exhibiting a resumption prefix of length 2:
`[Push 0, Push 1, Generate 0]`, with a pending event for the
`Generate` at position 2 and wake time 0.  Memory holds
`Float(1.0)` and `Float(2.0)` (1000 ms and 2000 ms). -/
def c1State : VMState :=
  { instructions := [.Push 0, .Push 1, .Generate 0]
    current_instruction := 7
    current_transact := none
    start_entities := 1
    current_time := 0
    events := [⟨2, 0, none⟩]
    memory := [.Float (.finite 1), .Float (.finite 2)]
    stack := []
    rng := fun _ => 0
    rng_idx := 0 }

/-- The state the interpreter actually produces from `c1State`: the
replay executed only instruction 0 (the loop and the instruction
handler both advance the pc), so the scheduled wake time comes from
`memory[0]` (1000 ms, not 2000 ms) and the stack is left empty (not
`[Float 1.0]`). -/
def c1Expected : VMState :=
  { c1State with
    current_instruction := 3
    current_transact := some ⟨Transact.empty.params.set 0 (.Integer 0)⟩
    events := [⟨2, 1000, none⟩]
    rng_idx := 1 }

/-- Four events pushed in order: ids 1, 2, 3 at wake time 5, then id 0
at wake time 1.  FIFO tie-breaking would pop ids in order 0, 1, 2, 3. -/
def c2Heap : List Event :=
  heapPush (heapPush (heapPush (heapPush [] ⟨1, 5, none⟩) ⟨2, 5, none⟩) ⟨3, 5, none⟩)
    ⟨0, 1, none⟩

/-- A state whose operand stack holds the negative time `Float(-1.0)`. -/
def c7State : VMState :=
  { instructions := []
    current_instruction := 0
    current_transact := none
    start_entities := 15
    current_time := 0
    events := []
    memory := []
    stack := [.Float (.finite (-1))]
    rng := fun _ => 0
    rng_idx := 0 }

/-- State for the C4 witness: a `Generate` at position 1 with prefix
`[0, 1)` = `Push 0`, a pending event for it at wake time 5, and an RNG
that yields 5. -/
def c4S : VMState :=
  { instructions := [.Push 0, .Generate 0]
    current_instruction := 9
    current_transact := none
    start_entities := 1
    current_time := 0
    events := [⟨1, 5, none⟩]
    memory := [.Float (.finite 1)]
    stack := []
    rng := fun _ => 5
    rng_idx := 0 }

/-- `c4S` after the event is dequeued and the prefix replayed. -/
def c4S2 : VMState :=
  { c4S with current_time := 5
             current_transact := none
             events := []
             stack := [.Float (.finite 1)]
             current_instruction := 2 }

/-- `c4S2` after the time operand is popped. -/
def c4S3 : VMState := { c4S2 with stack := [] }

/-- State for the C5 witness, part 1: executing an `Advance` whose time
operand `Float(1.0)` is on the stack, with a current transact. -/
def c5SA : VMState :=
  { instructions := [.Advance 0]
    current_instruction := 0
    current_transact := some Transact.empty
    start_entities := 1
    current_time := 0
    events := []
    memory := []
    stack := [.Float (.finite 1)]
    rng := fun _ => 0
    rng_idx := 0 }

/-- State for the C5 witness, part 2: a pending `Advance` event carrying
a transact, due at wake time 5. -/
def c5SB : VMState :=
  { instructions := [.Push 0, .Advance 0]
    current_instruction := 9
    current_transact := none
    start_entities := 1
    current_time := 0
    events := [⟨1, 5, some Transact.empty⟩]
    memory := [.Float (.finite 1)]
    stack := []
    rng := fun _ => 0
    rng_idx := 0 }

/-- `c5SB` after the event is dequeued (transact restored from the
event) and the prefix replayed. -/
def c5SB2 : VMState :=
  { c5SB with current_time := 5
              current_transact := some Transact.empty
              events := []
              stack := [.Float (.finite 1)]
              current_instruction := 2 }

/-- State for the C6 witness: a `Terminate` popping count 1 with
`start_entities = 1` and no pending events. -/
def c6S : VMState :=
  { instructions := [.Terminate 0]
    current_instruction := 0
    current_transact := some Transact.empty
    start_entities := 1
    current_time := 0
    events := []
    memory := []
    stack := [.UnsignedInteger 1]
    rng := fun _ => 0
    rng_idx := 0 }

/-- State for the C9 witness: `SaveValue 1` with a one-cell memory, so
the write appends. -/
def c9S : VMState :=
  { instructions := [.SaveValue 1]
    current_instruction := 0
    current_transact := none
    start_entities := 1
    current_time := 0
    events := []
    memory := [.UnsignedInteger 7]
    stack := [.UnsignedInteger 7]
    rng := fun _ => 0
    rng_idx := 0 }

/-- The state `c6S` steps to (used by the C3 witness). -/
def c3X : VMState :=
  { c6S with stack := []
             start_entities := 0
             current_transact := none
             current_instruction := 1 }

/-!  ## Invariants used by the claims -/

/-- Max-heap property of the heap's backing vector: with the reversed
`Event` order, every non-root element wakes no earlier than its
parent (so the root has the minimum `wake_time`). -/
def HP (l : List Event) : Prop :=
  ∀ i, i < l.length → 0 < i →
    (geti l ((i-1)/2)).wake_time ≤ (geti l i).wake_time

/-- Instruction index holding a suspending instruction. -/
def isSuspB (instrs : List Instr) (i : Nat) : Bool :=
  match instrs.get? i with
  | some (.Generate _) => true
  | some (.Advance _) => true
  | _ => false

/-- Clock invariant: the future-event set is a proper heap and every
pending event wakes no earlier than the current clock. -/
def ClockInv (s : VMState) : Prop :=
  HP s.events ∧ ∀ e ∈ s.events, s.current_time ≤ e.wake_time

/-- Event wellformedness: every pending event points at a suspending
instruction. -/
def EventsWF (s : VMState) : Prop :=
  ∀ e ∈ s.events, isSuspB s.instructions e.instruction_id = true

/-- Per-entry-point side condition for event wellformedness: `generate`
and `advance` are only called with the pc on the suspending instruction
they schedule. -/
def PreWF : Call → Prop
  | .gen s _ => isSuspB s.instructions s.current_instruction = true
  | .adv s _ => isSuspB s.instructions s.current_instruction = true
  | _ => True

/-- State a `Call` runs from. -/
def callState : Call → VMState
  | .instr s => s
  | .gen s _ => s
  | .adv s _ => s
  | .term s _ => s
  | .closest s => s
  | .fromTo s _ _ => s
  | .loop s _ => s
  | .proc s => s

/-!  ## Theorems -/

theorem stack_pop_inv {s : VMState} {v : GpssType} {s' : VMState}
    (h : stack_pop s = .ok (v, s')) : s' = { s with stack := s.stack.tail } ∧ s.stack = v :: s.stack.tail := by
  unfold stack_pop at h
  cases hs : s.stack with
  | nil => rw [hs] at h; exact VMRes.noConfusion h
  | cons a t => rw [hs] at h; injection h with h; injection h with h1 h2; subst h1; subst h2; exact ⟨rfl, by simp [hs]⟩

theorem stack_pop_time_inv {s : VMState} {t : Nat} {s' : VMState}
    (h : stack_pop_time s = .ok (t, s')) : s' = { s with stack := s.stack.tail } := by
  unfold stack_pop_time at h
  cases hp : stack_pop s with
  | ok p =>
    obtain ⟨v, s1⟩ := p
    rw [hp] at h
    dsimp only at h
    cases hf : gpssToF32 v with
    | ok f => rw [hf] at h; injection h with h; injection h with h1 h2; subst h2; exact (stack_pop_inv hp).1
    | err e => rw [hf] at h; exact VMRes.noConfusion h
    | oom => rw [hf] at h; exact VMRes.noConfusion h
  | err e => rw [hp] at h; exact VMRes.noConfusion h
  | oom => rw [hp] at h; exact VMRes.noConfusion h

theorem vmRun_instructions : ∀ fuel c s', vmRun fuel c = .ok s' →
    s'.instructions = (callState c).instructions := by
  intro fuel
  induction fuel with
  | zero => intro c s' h; exact VMRes.noConfusion h
  | succ fuel ih =>
    intro c s' h
    cases c with
    | gen s time =>
      unfold vmRun at h; dsimp only at h
      have hh := ih _ _ h; exact hh
    | adv s time =>
      unfold vmRun at h; dsimp only at h
      have hh := ih _ _ h; exact hh
    | term s count =>
      unfold vmRun at h; dsimp only at h
      split at h
      · split at h
        · have hh := ih _ _ h; exact hh
        · injection h with h; subst h; rfl
      · exact VMRes.noConfusion h
    | fromTo s start fin =>
      unfold vmRun at h; dsimp only at h
      have hh := ih _ _ h; exact hh
    | loop s fin =>
      unfold vmRun at h; dsimp only at h
      split at h
      · cases hr : vmRun fuel (.instr s) with
        | ok s1 =>
          rw [hr] at h; dsimp only at h
          have h2 := ih _ _ h
          have h1 := ih _ _ hr
          exact h2.trans h1
        | err e => rw [hr] at h; exact VMRes.noConfusion h
        | oom => rw [hr] at h; exact VMRes.noConfusion h
      · injection h with h; subst h; rfl
    | proc s =>
      unfold vmRun at h; dsimp only at h
      split at h
      · cases hr : vmRun fuel (.instr s) with
        | ok s1 =>
          rw [hr] at h; dsimp only at h
          have h2 := ih _ _ h
          have h1 := ih _ _ hr
          exact h2.trans h1
        | err e => rw [hr] at h; exact VMRes.noConfusion h
        | oom => rw [hr] at h; exact VMRes.noConfusion h
      · injection h with h; subst h; rfl
    | instr s =>
      unfold vmRun at h; dsimp only at h
      cases hg : s.instructions.get? s.current_instruction with
      | none => rw [hg] at h; exact VMRes.noConfusion h
      | some i =>
        rw [hg] at h
        cases i with
        | Generate b =>
          dsimp only at h
          cases hp : stack_pop_time s with
          | ok p =>
            obtain ⟨t1, s1⟩ := p
            rw [hp] at h; dsimp only at h
            have hh := ih _ _ h
            have h1 := stack_pop_time_inv hp
            subst h1; exact hh
          | err e => rw [hp] at h; exact VMRes.noConfusion h
          | oom => rw [hp] at h; exact VMRes.noConfusion h
        | Advance b =>
          dsimp only at h
          cases hp : stack_pop_time s with
          | ok p =>
            obtain ⟨t1, s1⟩ := p
            rw [hp] at h; dsimp only at h
            have hh := ih _ _ h
            have h1 := stack_pop_time_inv hp
            subst h1; exact hh
          | err e => rw [hp] at h; exact VMRes.noConfusion h
          | oom => rw [hp] at h; exact VMRes.noConfusion h
        | Terminate b =>
          dsimp only at h
          cases hp : stack_pop s with
          | ok p =>
            obtain ⟨v, s1⟩ := p
            rw [hp] at h; dsimp only at h
            cases hv : gpssToU32 v with
            | ok n =>
              rw [hv] at h; dsimp only at h
              have hh := ih _ _ h
              have h1 := (stack_pop_inv hp).1
              subst h1; exact hh
            | err e => rw [hv] at h; exact VMRes.noConfusion h
            | oom => rw [hv] at h; exact VMRes.noConfusion h
          | err e => rw [hp] at h; exact VMRes.noConfusion h
          | oom => rw [hp] at h; exact VMRes.noConfusion h
        | Print a =>
          dsimp only at h
          unfold print at h
          cases hm : s.memory.get? a with
          | some v => rw [hm] at h; dsimp only at h; injection h with h; subst h; rfl
          | none => rw [hm] at h; exact VMRes.noConfusion h
        | PrintClock =>
          dsimp only at h
          unfold print_clock at h; injection h with h; subst h; rfl
        | Transfer t =>
          dsimp only at h
          injection h with h; subst h; rfl
        | TestVar eg =>
          dsimp only at h
          cases hp : stack_pop s with
          | ok p =>
            obtain ⟨v, s1⟩ := p
            rw [hp] at h; dsimp only at h
            cases hv : gpssToBool v with
            | ok bb =>
              rw [hv] at h; dsimp only at h
              injection h with h; subst h
              have h1 := (stack_pop_inv hp).1
              subst h1
              unfold test_var; split <;> rfl
            | err e => rw [hv] at h; exact VMRes.noConfusion h
            | oom => rw [hv] at h; exact VMRes.noConfusion h
          | err e => rw [hp] at h; exact VMRes.noConfusion h
          | oom => rw [hp] at h; exact VMRes.noConfusion h
        | SaveValue a =>
          dsimp only at h
          cases hp : stack_pop s with
          | ok p =>
            obtain ⟨v, s1⟩ := p
            rw [hp] at h; dsimp only at h
            have h1 := (stack_pop_inv hp).1
            unfold save_value at h
            split at h
            · injection h with h; subst h; subst h1; rfl
            · split at h
              · injection h with h; subst h; subst h1; rfl
              · exact VMRes.noConfusion h
          | err e => rw [hp] at h; exact VMRes.noConfusion h
          | oom => rw [hp] at h; exact VMRes.noConfusion h
        | Push a =>
          dsimp only at h
          unfold push at h
          cases hm : s.memory.get? a with
          | some v => rw [hm] at h; dsimp only at h; injection h with h; subst h; rfl
          | none => rw [hm] at h; exact VMRes.noConfusion h
    | closest s =>
      unfold vmRun at h; dsimp only at h
      split at h
      · injection h with h; subst h; rfl
      · rename_i e rest hpop
        split at h
        · exact VMRes.noConfusion h
        · rename_i i hgi
          cases i
          case Generate b =>
            dsimp only at h
            split at h
            · rename_i s2 hr
              have hs2 := ih _ _ hr
              split at h
              · exact VMRes.noConfusion h
              · rename_i b2 hg2
                split at h
                · rename_i t2 s3 hp2
                  injection h with h; subst h
                  have h3 := stack_pop_time_inv hp2
                  subst h3
                  exact hs2
                · exact VMRes.noConfusion h
                · exact VMRes.noConfusion h
              · rename_i i2 hg2 hne
                injection h with h; subst h
                exact hs2
            · rename_i hne
              exact absurd h (hne s')
          case Advance b =>
            dsimp only at h
            split at h
            · rename_i s2 hr
              have hs2 := ih _ _ hr
              split at h
              · exact VMRes.noConfusion h
              · rename_i b2 hg2
                split at h
                · rename_i t2 s3 hp2
                  injection h with h; subst h
                  have h3 := stack_pop_time_inv hp2
                  subst h3
                  exact hs2
                · exact VMRes.noConfusion h
                · exact VMRes.noConfusion h
              · rename_i i2 hg2 hne
                injection h with h; subst h
                exact hs2
            · rename_i hne
              exact absurd h (hne s')
          all_goals (dsimp only at h; injection h with h; subst h; rfl)

/-- Claim C1 (code bug): the claim states that on resumption of a
suspending instruction at position `p` with operand `begin`, every
instruction in `[begin, p)` executes exactly once in program order
before the instruction's own action.  The code does not do this: the
replay loop in `process_from_to` adds `pc += 1` after each
`process_instruction()` even though every instruction handler already
advances the pc, so the replay executes positions `begin, begin+2, ...`
only.  Concretely, resuming the `Generate` at position 2 of `c1State`
(prefix `[0, 2)` = `Push 0; Push 1`) executes only `Push 0`: the
scheduled wake time is 1000 ms (`memory[0]`), not 2000 ms
(`memory[1]`), and the operand stack is left empty instead of holding
the unconsumed `Float 1.0`. -/
theorem claim1_prefix_replay_skips :
    perform_closest 10 c1State = .ok c1Expected := by
  rfl

/-- Claim C2 (code bug): the claim states that events with equal
`wake_time` leave the future-event set in enqueue (FIFO) order under
every interleaving of `schedule` and `pop_next`.  The `Ord` instance of
`Event` compares only `wake_time` and the events live in a raw binary
heap, so ties are not FIFO: pushing events with ids 1, 2, 3 (all at
wake time 5) and then id 0 (wake time 1), the first pop returns id 0
but the second pop returns id 3 — the *third*-enqueued of the three
equal-time events — instead of id 1. -/
theorem claim2_fifo_tiebreak_violated :
    (heapPop c2Heap).map (fun p => p.1.instruction_id) = some 0 ∧
    ((heapPop c2Heap).bind fun p =>
      (heapPop p.2).map fun q => q.1.instruction_id) = some 3 := by
  decide

/-- Claim C7 (code bug): the claim states that a negative, NaN or
infinite `Float` time operand is rejected as a fatal `InvalidTime`
error.  The code has no such check: `(t * 1000.0) as u64` is Rust's
saturating cast, so popping `Float(-1.0)` succeeds and yields 0 ms
(likewise NaN gives 0 and `+inf` gives `u64::MAX`); no error of any
kind is produced.  The truncation half of the claim does hold for
finite non-negative values (last conjunct). -/
theorem claim7_time_cast_saturates :
    stack_pop_time c7State = .ok (0, { c7State with stack := [] }) ∧
    fraction_time_to_int (.finite (-1)) = 0 ∧
    fraction_time_to_int .nan = 0 ∧
    fraction_time_to_int .inf = 2^64 - 1 ∧
    fraction_time_to_int (.finite ⟨3, 2, by decide, by decide⟩) = 1500 := by
  exact ⟨rfl, by decide, by decide, by decide, by decide⟩

/-- Claim C8, counterexample: the claim states that the ordering
comparison of two values with different tags fails with `TypeMismatch`
(a programming error, not a normal result).  In the code the cross-tag
arm of `partial_cmp` returns `None`, a perfectly normal result, and
does not panic: comparing `Boolean(true)` with `Integer(0)` yields
`Some(None)` rather than a panic. -/
theorem claim8_cross_tag_cmp_no_panic :
    gpssPartialCmp (.Boolean true) (.Integer 0) = .ok none ∧
    (PanicOr.ok (none : Option Ordering) ≠ .panic) := by
  decide

/-- Claim C8, amended: cross-tag *equality* panics (the `TypeMismatch`
programming error), while the cross-tag *ordering* comparison returns
`None` as a normal result; same-tag values compare their payloads
(IEEE-754 comparison for `Float`, so `partial_cmp` of a NaN operand is
also `None`). -/
theorem claim8_comparisons :
    (∀ a b, tagOf a ≠ tagOf b →
      gpssEq a b = .panic ∧ gpssPartialCmp a b = .ok none) ∧
    (∀ x y : Bool, gpssEq (.Boolean x) (.Boolean y) = .ok (x == y) ∧
      gpssPartialCmp (.Boolean x) (.Boolean y) = .ok (some (compare x y))) ∧
    (∀ x y : F32, gpssEq (.Float x) (.Float y) = .ok (f32Eq x y) ∧
      gpssPartialCmp (.Float x) (.Float y) = .ok (f32Cmp x y)) ∧
    (∀ x y : Int, gpssEq (.Integer x) (.Integer y) = .ok (x == y) ∧
      gpssPartialCmp (.Integer x) (.Integer y) = .ok (some (compare x y))) ∧
    (∀ x y : Nat, gpssEq (.Facility x) (.Facility y) = .ok (x == y) ∧
      gpssPartialCmp (.Facility x) (.Facility y) = .ok (some (compare x y))) ∧
    (∀ x y : Nat,
      gpssEq (.UnsignedInteger x) (.UnsignedInteger y) = .ok (x == y) ∧
      gpssPartialCmp (.UnsignedInteger x) (.UnsignedInteger y) =
        .ok (some (compare x y))) := by
  refine ⟨?_, fun x y => ⟨rfl, rfl⟩, fun x y => ⟨rfl, rfl⟩,
    fun x y => ⟨rfl, rfl⟩, fun x y => ⟨rfl, rfl⟩, fun x y => ⟨rfl, rfl⟩⟩
  intro a b hab
  cases a <;> cases b <;> first
    | exact absurd rfl hab
    | exact ⟨rfl, rfl⟩

/-- Witness for `claim8_comparisons` at a concrete cross-tag pair. -/
theorem claim8_comparisons_witness :
    tagOf (.Float .nan) ≠ tagOf (.UnsignedInteger 3) ∧
    (gpssEq (.Float .nan) (.UnsignedInteger 3) = .panic ∧
     gpssPartialCmp (.Float .nan) (.UnsignedInteger 3) = .ok none) :=
  ⟨by decide, claim8_comparisons.1 _ _ (by decide)⟩

/-- Claim C9 (confirmed): `SaveValue(i)` pops `v` and overwrites
`memory[i]` when `i < len`, appends (growing memory by exactly one)
when `i = len`, and fails fatally (`MemoryHole`) when `i > len`; in the
non-fatal cases the pc advances by one and no other memory cell
changes. -/
theorem claim9_save_value (fuel : Nat) (s : VMState) (a : Nat) (v : GpssType)
    (rest : List GpssType)
    (h1 : s.instructions.get? s.current_instruction = some (.SaveValue a))
    (h2 : s.stack = v :: rest) :
    process_instruction (fuel+1) s =
      (if s.memory.length > a then
        .ok { s with stack := rest
                     memory := s.memory.set a v
                     current_instruction := s.current_instruction + 1 }
      else if s.memory.length = a then
        .ok { s with stack := rest
                     memory := s.memory ++ [v]
                     current_instruction := s.current_instruction + 1 }
      else .err .memoryHole) ∧
    (s.memory.set a v).length = s.memory.length ∧
    (s.memory ++ [v]).length = s.memory.length + 1 ∧
    (∀ j, j ≠ a → (s.memory.set a v).get? j = s.memory.get? j) ∧
    (∀ j, j < s.memory.length → (s.memory ++ [v]).get? j = s.memory.get? j) := by
  refine ⟨?_, by simp, by simp, ?_, ?_⟩
  · have hp : stack_pop s = .ok (v, { s with stack := rest }) := by
      unfold stack_pop; rw [h2]
    unfold process_instruction vmRun
    dsimp only
    rw [h1]
    dsimp only
    rw [hp]
    dsimp only
    unfold save_value
    rfl
  · intro j hj
    exact List.get?_set_ne _ _ (fun hh => hj hh.symm)
  · intro j hj
    exact List.get?_append hj

/-- Witness for `claim9_save_value`: appending at one-past-the-end. -/
theorem claim9_witness :
    process_instruction 1 c9S =
      .ok { c9S with stack := []
                     memory := [.UnsignedInteger 7, .UnsignedInteger 7]
                     current_instruction := 1 } :=
  (claim9_save_value 0 c9S 1 (.UnsignedInteger 7) [] (by decide) rfl).1

/-- Claim C6 (confirmed): `Terminate` pops a count `n`; `n` larger than
`remaining_starts` is the fatal `StartUnderflow` (the u32 subtraction
panics), otherwise `start_entities` drops by `n`, the current transact
is cleared, and then: one scheduler step if events remain and
`start_entities` is still positive, else `pc += 1` (letting the outer
loop halt when `start_entities` is zero or the pc runs off the end). -/
theorem claim6_terminate (fuel : Nat) (s : VMState) (b n : Nat)
    (rest : List GpssType)
    (h1 : s.instructions.get? s.current_instruction = some (.Terminate b))
    (h2 : s.stack = .UnsignedInteger n :: rest) :
    process_instruction (fuel+2) s =
      (if n ≤ s.start_entities then
        (if 0 < s.events.length ∧ 0 < s.start_entities - n then
          perform_closest fuel
            { s with stack := rest
                     start_entities := s.start_entities - n
                     current_transact := none }
        else
          .ok { s with stack := rest
                       start_entities := s.start_entities - n
                       current_transact := none
                       current_instruction := s.current_instruction + 1 })
      else .err .startUnderflow) := by
  have hp : stack_pop s = .ok (.UnsignedInteger n, { s with stack := rest }) := by
    unfold stack_pop; rw [h2]
  unfold process_instruction vmRun
  dsimp only
  rw [h1]
  dsimp only
  rw [hp]
  dsimp only
  unfold gpssToU32
  dsimp only
  unfold vmRun
  dsimp only
  unfold perform_closest
  rfl

/-- Witness for `claim6_terminate`: empty queue, count 1 from start 1. -/
theorem claim6_witness :
    process_instruction 2 c6S =
      .ok { c6S with stack := []
                     start_entities := 0
                     current_transact := none
                     current_instruction := 1 } :=
  claim6_terminate 0 c6S 0 1 [] (by decide) rfl

/-- Claim C5 (confirmed), in two parts.  Executing `Advance` pops a
time `t` and enqueues an event carrying a copy of the current transact
with `wake_time = clock + t`, then hands control to the scheduler.
When such an event is dequeued, `current_transact` is restored from the
event (visible in the state the prefix replay starts from), the
`Advance` resumption schedules no new event (the final state is the
replay result unchanged except for the pc), and the pc is set to the
instruction after the `Advance`. -/
theorem claim5_advance :
    (∀ fuel (s : VMState) (b t : Nat) (s1 : VMState),
      s.instructions.get? s.current_instruction = some (.Advance b) →
      stack_pop_time s = .ok (t, s1) →
      process_instruction (fuel+2) s =
        perform_closest fuel
          (create_event s1 s1.current_instruction (s1.current_time + t)
            s1.current_transact)) ∧
    (∀ fuel (s : VMState) (e : Event) (rest : List Event) (b : Nat)
        (s2 : VMState),
      heapPop s.events = some (e, rest) →
      s.instructions.get? e.instruction_id = some (.Advance b) →
      process_from_to fuel
        { s with current_time := e.wake_time
                 current_transact := e.transact
                 events := rest } b e.instruction_id = .ok s2 →
      perform_closest (fuel+1) s =
        .ok { s2 with current_instruction := e.instruction_id + 1 }) := by
  constructor
  · intro fuel s b t s1 h1 h2
    unfold process_instruction vmRun
    dsimp only
    rw [h1]
    dsimp only
    rw [h2]
    dsimp only
    unfold vmRun
    dsimp only
    unfold perform_closest
    rfl
  · intro fuel s e rest b s2 h1 h2 h3
    unfold process_from_to at h3
    have hi : s2.instructions = s.instructions := vmRun_instructions _ _ _ h3
    unfold perform_closest vmRun
    dsimp only
    rw [h1]
    dsimp only
    rw [h2]
    dsimp only
    rw [h3]
    dsimp only
    rw [show s2.instructions.get? e.instruction_id = some (.Advance b) from
      hi ▸ h2]

/-- Witness for `claim5_advance` at concrete states (both parts). -/
theorem claim5_witness :
    (process_instruction 2 c5SA =
      perform_closest 0
        (create_event { c5SA with stack := [] } 0 1000 (some Transact.empty))) ∧
    (perform_closest 4 c5SB = .ok { c5SB2 with current_instruction := 2 }) :=
  ⟨claim5_advance.1 0 c5SA 0 1000 { c5SA with stack := [] } (by decide) rfl,
   claim5_advance.2 3 c5SB ⟨1, 5, some Transact.empty⟩ [] 0 c5SB2
     (by decide) (by decide) rfl⟩

/-- Claim C4 (confirmed): when the scheduler dequeues an event for a
`Generate` and the prefix replay yields `s2`, the resumption pops a
time `t` from the stack, installs a fresh transact whose parameter 0 is
`Integer(r)` with `r` the next RNG draw and whose other 15 parameters
are `Boolean(false)`, schedules a new event at the same `Generate` with
`wake_time = clock + t` and no transact, and sets the pc to the
instruction after the `Generate`. -/
theorem claim4_generate_resumption (fuel : Nat) (s : VMState) (e : Event)
    (rest : List Event) (b : Nat) (s2 : VMState) (t : Nat) (s3 : VMState)
    (h1 : heapPop s.events = some (e, rest))
    (h2 : s.instructions.get? e.instruction_id = some (.Generate b))
    (h3 : process_from_to fuel
      { s with current_time := e.wake_time
               current_transact := e.transact
               events := rest } b e.instruction_id = .ok s2)
    (h4 : stack_pop_time s2 = .ok (t, s3)) :
    perform_closest (fuel+1) s =
      .ok { create_event
              { s3 with
                current_transact := some ⟨Transact.empty.params.set 0
                  (.Integer (s3.rng s3.rng_idx))⟩
                rng_idx := s3.rng_idx + 1 }
              e.instruction_id (s3.current_time + t) none with
            current_instruction := e.instruction_id + 1 } ∧
    (Transact.empty.params.set 0 (.Integer (s3.rng s3.rng_idx))).get? 0 =
      some (.Integer (s3.rng s3.rng_idx)) ∧
    (∀ j, 0 < j → j < 16 →
      (Transact.empty.params.set 0 (.Integer (s3.rng s3.rng_idx))).get? j =
        some (.Boolean false)) := by
  refine ⟨?_, rfl, ?_⟩
  · unfold process_from_to at h3
    have hi : s2.instructions = s.instructions := vmRun_instructions _ _ _ h3
    unfold perform_closest vmRun
    dsimp only
    rw [h1]
    dsimp only
    rw [h2]
    dsimp only
    rw [h3]
    dsimp only
    rw [show s2.instructions.get? e.instruction_id = some (.Generate b) from
      hi ▸ h2]
    dsimp only
    rw [h4]
  · intro j h0 h16
    rw [List.get?_set_ne _ _ (fun hh => h0.ne hh)]
    unfold Transact.empty GpssType.empty
    dsimp only
    rw [List.get?_eq_getElem?]
    rw [List.getElem?_replicate]
    simp [h16]

/-- Witness for `claim4_generate_resumption` at a concrete run. -/
theorem claim4_witness :
    perform_closest 4 c4S =
      .ok { create_event
              { c4S3 with
                current_transact := some ⟨Transact.empty.params.set 0 (.Integer 5)⟩
                rng_idx := 1 }
              1 1005 none with
            current_instruction := 2 } :=
  (claim4_generate_resumption 3 c4S ⟨1, 5, none⟩ [] 0 c4S2 1000 c4S3
    (by decide) (by decide) rfl rfl).1

/-!  ## Heap correctness and interpreter invariants -/



theorem geti_set_self (l : List Event) (i : Nat) (v : Event)
    (h : i < l.length) : geti (l.set i v) i = v := by
  induction l generalizing i with
  | nil => simp at h
  | cons a t ih =>
    cases i with
    | zero => rfl
    | succ n => exact ih n (by simpa using h)

theorem geti_set_ne (l : List Event) (i j : Nat) (v : Event)
    (h : j ≠ i) : geti (l.set i v) j = geti l j := by
  induction l generalizing i j with
  | nil => rfl
  | cons a t ih =>
    cases i with
    | zero =>
      cases j with
      | zero => exact absurd rfl h
      | succ m => rfl
    | succ n =>
      cases j with
      | zero => rfl
      | succ m => exact ih n m (by omega)

theorem geti_append_left (l l2 : List Event) (i : Nat)
    (h : i < l.length) : geti (l ++ l2) i = geti l i := by
  induction l generalizing i with
  | nil => simp at h
  | cons a t ih =>
    cases i with
    | zero => rfl
    | succ n => exact ih n (by simpa using h)

theorem geti_append_last (l : List Event) (e : Event) :
    geti (l ++ [e]) l.length = e := by
  induction l with
  | nil => rfl
  | cons a t ih => exact ih

theorem geti_take (l : List Event) (k i : Nat) (h1 : i < k)
    (h2 : i < l.length) : geti (l.take k) i = geti l i := by
  induction l generalizing k i with
  | nil => simp at h2
  | cons a t ih =>
    cases k with
    | zero => omega
    | succ m =>
      cases i with
      | zero => rfl
      | succ n => exact ih m n (by omega) (by simpa using h2)

theorem geti_mem (l : List Event) (i : Nat) (h : i < l.length) :
    geti l i ∈ l := by
  induction l generalizing i with
  | nil => simp at h
  | cons a t ih =>
    cases i with
    | zero => exact List.mem_cons_self _ _
    | succ n => exact List.mem_cons_of_mem _ (ih n (by simpa using h))

theorem mem_geti (l : List Event) (x : Event) (h : x ∈ l) :
    ∃ i, i < l.length ∧ geti l i = x := by
  induction l with
  | nil => simp at h
  | cons a t ih =>
    rcases List.mem_cons.mp h with h1 | h2
    · exact ⟨0, by simp, h1.symm⟩
    · obtain ⟨i, hi, he⟩ := ih h2
      exact ⟨i + 1, by simpa using hi, he⟩

theorem mem_set_cases (l : List Event) (i : Nat) (v x : Event)
    (h : x ∈ l.set i v) : x ∈ l ∨ x = v := by
  induction l generalizing i with
  | nil => simp at h
  | cons a t ih =>
    cases i with
    | zero =>
      rcases List.mem_cons.mp h with h1 | h2
      · exact .inr h1
      · exact .inl (List.mem_cons_of_mem _ h2)
    | succ n =>
      rcases List.mem_cons.mp h with h1 | h2
      · exact .inl (h1 ▸ List.mem_cons_self _ _)
      · rcases ih n h2 with h3 | h3
        · exact .inl (List.mem_cons_of_mem _ h3)
        · exact .inr h3

theorem siftUp_length (fuel : Nat) (data : List Event) (elem : Event)
    (h : Nat) : (siftUp fuel data elem h).length = data.length := by
  induction fuel generalizing data h with
  | zero => simp [siftUp]
  | succ fuel ih =>
    unfold siftUp
    dsimp only
    split
    · simp
    · split
      · simp
      · rw [ih]; simp

theorem siftUp_mem (fuel : Nat) (data : List Event) (elem : Event)
    (h : Nat) (hlen : h < data.length) :
    ∀ x ∈ siftUp fuel data elem h, x ∈ data ∨ x = elem := by
  induction fuel generalizing data h with
  | zero =>
    intro x hx
    exact mem_set_cases _ _ _ _ hx
  | succ fuel ih =>
    intro x hx
    unfold siftUp at hx
    dsimp only at hx
    split at hx
    · exact mem_set_cases _ _ _ _ hx
    · split at hx
      · exact mem_set_cases _ _ _ _ hx
      · rename_i h0 hle
        have hp : (h - 1) / 2 < h := by omega
        have := ih (data.set h (geti data ((h - 1) / 2))) ((h - 1) / 2)
          (by simpa using Nat.lt_trans hp hlen) x hx
        rcases this with h1 | h1
        · rcases mem_set_cases _ _ _ _ h1 with h2 | h2
          · exact .inl h2
          · exact .inl (h2 ▸ geti_mem _ _ (by omega))
        · exact .inr h1

theorem siftDown_length (fuel : Nat) (data : List Event) (elem : Event)
    (en h : Nat) : (siftDown fuel data elem en h).length = data.length := by
  induction fuel generalizing data h with
  | zero => simp [siftDown]
  | succ fuel ih =>
    unfold siftDown
    dsimp only
    split
    · rw [ih]; simp
    · split
      · rw [siftUp_length]; simp
      · rw [siftUp_length]

theorem siftDown_mem (fuel : Nat) (data : List Event) (elem : Event)
    (en h : Nat) (hen : en ≤ data.length) (hlen : h < data.length) :
    ∀ x ∈ siftDown fuel data elem en h, x ∈ data ∨ x = elem := by
  induction fuel generalizing data h with
  | zero =>
    intro x hx
    exact mem_set_cases _ _ _ _ hx
  | succ fuel ih =>
    intro x hx
    unfold siftDown at hx
    dsimp only at hx
    split at hx
    · rename_i hc
      have hchild : (if eventLe (geti data (2*h+1)) (geti data (2*h+1+1))
          then 2*h+1+1 else 2*h+1) < data.length := by
        split <;> omega
      have := ih (data.set h (geti data _)) _ (by simpa using hen)
        (by simpa using hchild) x hx
      rcases this with h1 | h1
      · rcases mem_set_cases _ _ _ _ h1 with h2 | h2
        · exact .inl h2
        · exact .inl (h2 ▸ geti_mem _ _ hchild)
      · exact .inr h1
    · split at hx
      · rename_i hc hc2
        have hchild : 2*h+1 < data.length := by omega
        have := siftUp_mem (en+1) (data.set h (geti data (2*h+1))) elem
          (2*h+1) (by simpa using hchild) x hx
        rcases this with h1 | h1
        · rcases mem_set_cases _ _ _ _ h1 with h2 | h2
          · exact .inl h2
          · exact .inl (h2 ▸ geti_mem _ _ hchild)
        · exact .inr h1
      · exact siftUp_mem (en+1) data elem h hlen x hx





theorem siftUp_HP (fuel : Nat) (data : List Event) (elem : Event) (h : Nat)
    (hlen : h < data.length) (hfuel : h < fuel)
    (inv1 : ∀ i, i < data.length → 0 < i → i ≠ h → (i-1)/2 ≠ h →
      (geti data ((i-1)/2)).wake_time ≤ (geti data i).wake_time)
    (inv2 : ∀ c, c < data.length → 0 < c → (c-1)/2 = h →
      elem.wake_time ≤ (geti data c).wake_time)
    (inv3 : h ≠ 0 → ∀ c, c < data.length → 0 < c → (c-1)/2 = h →
      (geti data ((h-1)/2)).wake_time ≤ (geti data c).wake_time) :
    HP (siftUp fuel data elem h) := by
  induction fuel generalizing data h with
  | zero => omega
  | succ fuel ih =>
    unfold siftUp
    dsimp only
    split
    · rename_i h0
      subst h0
      intro i hi hpos
      rw [List.length_set] at hi
      rw [geti_set_ne _ _ _ _ (by omega : i ≠ 0)]
      by_cases hp : (i-1)/2 = 0
      · rw [hp, geti_set_self _ _ _ (by omega)]
        exact inv2 i hi hpos hp
      · rw [geti_set_ne _ _ _ _ hp]
        exact inv1 i hi hpos (by omega) hp
    · rename_i h0
      split
      · rename_i hle
        have hle' : (geti data ((h-1)/2)).wake_time ≤ elem.wake_time := by
          simpa [eventLe] using hle
        intro i hi hpos
        rw [List.length_set] at hi
        by_cases hih : i = h
        · subst hih
          rw [geti_set_self _ _ _ hlen,
            geti_set_ne _ _ _ _ (by omega : (i-1)/2 ≠ i)]
          exact hle'
        · rw [geti_set_ne _ _ _ _ hih]
          by_cases hph : (i-1)/2 = h
          · rw [hph, geti_set_self _ _ _ hlen]
            exact inv2 i hi hpos hph
          · rw [geti_set_ne _ _ _ _ hph]
            exact inv1 i hi hpos hih hph
      · rename_i hgt
        have hgt' : elem.wake_time < (geti data ((h-1)/2)).wake_time := by
          have := (Bool.not_eq_true _).mp hgt
          simp [eventLe] at this
          omega
        apply ih
        · rw [List.length_set]; omega
        · omega
        · intro i hi hpos hneq hpneq
          rw [List.length_set] at hi
          by_cases hih : i = h
          · exact absurd (by subst hih; rfl) hpneq
          · by_cases hph : (i-1)/2 = h
            · rw [geti_set_ne _ _ _ _ hih, hph, geti_set_self _ _ _ hlen]
              exact inv3 h0 i hi hpos hph
            · rw [geti_set_ne _ _ _ _ hih, geti_set_ne _ _ _ _ hph]
              exact inv1 i hi hpos hih hph
        · intro c hc hpos hpc
          rw [List.length_set] at hc
          by_cases hch : c = h
          · subst hch
            rw [geti_set_self _ _ _ hlen]
            omega
          · rw [geti_set_ne _ _ _ _ hch]
            have h1 := inv1 c hc hpos hch (by omega)
            rw [hpc] at h1
            omega
        · intro hp0 c hc hpos hpc
          rw [List.length_set] at hc
          rw [geti_set_ne _ _ _ _ (by omega : ((h-1)/2 - 1)/2 ≠ h)]
          have h2 := inv1 ((h-1)/2) (by omega) (by omega) (by omega) (by omega)
          by_cases hch : c = h
          · subst hch
            rw [geti_set_self _ _ _ hlen]
            exact h2
          · rw [geti_set_ne _ _ _ _ hch]
            have h1 := inv1 c hc hpos hch (by omega)
            rw [hpc] at h1
            omega



theorem siftDown_HP (fuel : Nat) (data : List Event) (elem : Event)
    (en h : Nat) (hen : en = data.length) (hlen : h < en)
    (hfuel : en ≤ fuel + h)
    (inva : ∀ i, i < en → 0 < i → i ≠ h → (i-1)/2 ≠ h →
      (geti data ((i-1)/2)).wake_time ≤ (geti data i).wake_time)
    (invb : h ≠ 0 → ∀ c, c < en → 0 < c → (c-1)/2 = h →
      (geti data ((h-1)/2)).wake_time ≤ (geti data c).wake_time) :
    HP (siftDown fuel data elem en h) := by
  induction fuel generalizing data h with
  | zero => omega
  | succ fuel ih =>
    unfold siftDown
    dsimp only
    split
    · rename_i hc
      by_cases hsel : eventLe (geti data (2*h+1)) (geti data (2*h+1+1)) = true
      · rw [if_pos hsel]
        have hmin : (geti data (2*h+1+1)).wake_time ≤ (geti data (2*h+1)).wake_time := by
          simpa [eventLe] using hsel
        apply ih
        · rw [List.length_set]; exact hen
        · omega
        · omega
        · intro i hi hpos hneq hpneq
          by_cases hih : i = h
          · rw [hih]
            rw [geti_set_ne _ _ _ _ (show (h-1)/2 ≠ h by omega)]
            rw [geti_set_self _ _ _ (show h < data.length by omega)]
            exact invb (show h ≠ 0 by omega) (2*h+1+1) (by omega) (by omega)
              (by omega)
          · by_cases hph : (i-1)/2 = h
            · have hi' : i = 2*h+1 := by omega
              rw [hi', show (2*h+1-1)/2 = h from by omega]
              rw [geti_set_self _ _ _ (show h < data.length by omega)]
              rw [geti_set_ne _ _ _ _ (show 2*h+1 ≠ h by omega)]
              exact hmin
            · rw [geti_set_ne _ _ _ _ hih, geti_set_ne _ _ _ _ hph]
              exact inva i hi hpos hih hph
        · intro hm0 c hc2 hpos hpc
          rw [show (2*h+1+1-1)/2 = h from by omega]
          rw [geti_set_self _ _ _ (show h < data.length by omega)]
          rw [geti_set_ne _ _ _ _ (show c ≠ h by omega)]
          rw [show 2*h+1+1 = (c-1)/2 from by omega]
          exact inva c hc2 hpos (show c ≠ h by omega)
            (show (c-1)/2 ≠ h by omega)
      · rw [if_neg hsel]
        have hmin : (geti data (2*h+1)).wake_time ≤ (geti data (2*h+1+1)).wake_time := by
          have := (Bool.not_eq_true _).mp hsel
          simp [eventLe] at this
          omega
        apply ih
        · rw [List.length_set]; exact hen
        · omega
        · omega
        · intro i hi hpos hneq hpneq
          by_cases hih : i = h
          · rw [hih]
            rw [geti_set_ne _ _ _ _ (show (h-1)/2 ≠ h by omega)]
            rw [geti_set_self _ _ _ (show h < data.length by omega)]
            exact invb (show h ≠ 0 by omega) (2*h+1) (by omega) (by omega)
              (by omega)
          · by_cases hph : (i-1)/2 = h
            · have hi' : i = 2*h+1+1 := by omega
              rw [hi', show (2*h+1+1-1)/2 = h from by omega]
              rw [geti_set_self _ _ _ (show h < data.length by omega)]
              rw [geti_set_ne _ _ _ _ (show 2*h+1+1 ≠ h by omega)]
              exact hmin
            · rw [geti_set_ne _ _ _ _ hih, geti_set_ne _ _ _ _ hph]
              exact inva i hi hpos hih hph
        · intro hm0 c hc2 hpos hpc
          rw [show (2*h+1-1)/2 = h from by omega]
          rw [geti_set_self _ _ _ (show h < data.length by omega)]
          rw [geti_set_ne _ _ _ _ (show c ≠ h by omega)]
          rw [show 2*h+1 = (c-1)/2 from by omega]
          exact inva c hc2 hpos (show c ≠ h by omega)
            (show (c-1)/2 ≠ h by omega)
    · rename_i hc
      split
      · rename_i hc2
        apply siftUp_HP
        · rw [List.length_set]; omega
        · omega
        · intro i hi hpos hneq hpneq
          rw [List.length_set] at hi
          by_cases hih : i = h
          · rw [hih]
            rw [geti_set_ne _ _ _ _ (show (h-1)/2 ≠ h by omega)]
            rw [geti_set_self _ _ _ (show h < data.length by omega)]
            exact invb (show h ≠ 0 by omega) (2*h+1) (by omega) (by omega)
              (by omega)
          · by_cases hph : (i-1)/2 = h
            · omega
            · rw [geti_set_ne _ _ _ _ hih, geti_set_ne _ _ _ _ hph]
              exact inva i (by omega) hpos hih hph
        · intro c hcl hpos hpc
          rw [List.length_set] at hcl
          omega
        · intro hm0 c hcl hpos hpc
          rw [List.length_set] at hcl
          omega
      · rename_i hc2
        apply siftUp_HP
        · omega
        · omega
        · intro i hi hpos hneq hpneq
          exact inva i (by omega) hpos hneq hpneq
        · intro c hcl hpos hpc
          omega
        · intro hm0 c hcl hpos hpc
          omega



theorem HP_root_min (l : List Event) (hp : HP l) :
    ∀ i, i < l.length → (geti l 0).wake_time ≤ (geti l i).wake_time := by
  intro i
  induction i using Nat.strong_induction_on with
  | _ i ih =>
    intro hi
    cases Nat.eq_zero_or_pos i with
    | inl h0 => rw [h0]
    | inr hpos =>
      have h1 := hp i hi hpos
      have h2 := ih ((i-1)/2) (by omega) (by omega)
      omega

theorem heapPush_HP (l : List Event) (e : Event) (hp : HP l) :
    HP (heapPush l e) := by
  unfold heapPush
  apply siftUp_HP
  · simp
  · omega
  · intro i hi hpos hneq hpneq
    simp at hi
    have hi' : i < l.length := by omega
    rw [geti_append_left _ _ _ hi', geti_append_left _ _ _ (by omega)]
    exact hp i hi' hpos
  · intro c hc hpos hpc
    simp at hc
    omega
  · intro hm0 c hc hpos hpc
    simp at hc
    omega

theorem heapPush_mem (l : List Event) (e : Event) :
    ∀ x ∈ heapPush l e, x ∈ l ∨ x = e := by
  intro x hx
  unfold heapPush at hx
  have := siftUp_mem _ _ _ _ (by simp) x hx
  rcases this with h1 | h1
  · rcases List.mem_append.mp h1 with h2 | h2
    · exact .inl h2
    · exact .inr (by simpa using h2)
  · exact .inr h1

theorem heapPop_mem (l : List Event) (v : Event) (l' : List Event)
    (h : heapPop l = some (v, l')) : v ∈ l ∧ ∀ x ∈ l', x ∈ l := by
  unfold heapPop at h
  cases l with
  | nil => exact Option.noConfusion h
  | cons a t =>
    dsimp only at h
    have hlen : (List.take ((a :: t).length - 1) (a :: t)).length =
        (a :: t).length - 1 := by simp
    split at h
    · rename_i hr
      injection h with h
      injection h with h1 h2
      subst h1
      subst h2
      refine ⟨geti_mem _ _ (by simp), ?_⟩
      intro x hx
      rw [List.eq_nil_of_length_eq_zero hr] at hx
      simp at hx
    · rename_i hr
      injection h with h
      injection h with h1 h2
      subst h1
      subst h2
      have hr2 : 0 < (a :: t).length - 1 := by
        rw [hlen] at hr; omega
      constructor
      · rw [geti_take (a :: t) ((a :: t).length - 1) 0 hr2 (by simp)]
        exact geti_mem _ _ (by simp)
      · intro x hx
        have := siftDown_mem _ _ _ _ _ (le_of_eq rfl) (by omega) x hx
        rcases this with h1 | h1
        · exact List.mem_of_mem_take h1
        · exact h1 ▸ geti_mem _ _ (by simp)

theorem heapPop_HP (l : List Event) (v : Event) (l' : List Event)
    (hp : HP l) (h : heapPop l = some (v, l')) : HP l' := by
  unfold heapPop at h
  cases l with
  | nil => exact Option.noConfusion h
  | cons a t =>
    dsimp only at h
    have hlen : (List.take ((a :: t).length - 1) (a :: t)).length =
        (a :: t).length - 1 := by simp
    split at h
    · rename_i hr
      injection h with h
      injection h with h1 h2
      subst h2
      intro i hi hpos
      rw [hr] at hi
      omega
    · rename_i hr
      injection h with h
      injection h with h1 h2
      subst h2
      have hr2 : 0 < (a :: t).length - 1 := by
        rw [hlen] at hr; omega
      apply siftDown_HP
      · rfl
      · rw [hlen]; omega
      · omega
      · intro i hi hpos hneq hpneq
        rw [hlen] at hi
        rw [geti_take (a :: t) ((a :: t).length - 1) i (by omega) (by omega),
          geti_take (a :: t) ((a :: t).length - 1) ((i-1)/2) (by omega)
            (by omega)]
        exact hp i (by omega) hpos
      · intro hm0
        omega

theorem heapPop_min (l : List Event) (v : Event) (l' : List Event)
    (hp : HP l) (h : heapPop l = some (v, l')) :
    ∀ x ∈ l, v.wake_time ≤ x.wake_time := by
  have hv : v = geti l 0 := by
    unfold heapPop at h
    cases l with
    | nil => exact Option.noConfusion h
    | cons a t =>
      dsimp only at h
      have hlen : (List.take ((a :: t).length - 1) (a :: t)).length =
          (a :: t).length - 1 := by simp
      split at h
      · rename_i hr
        injection h with h
        injection h with h1 h2
        rw [← h1]
        have h0 : (a :: t).length - 1 = 0 := by omega
        rw [h0]
      · rename_i hr
        injection h with h
        injection h with h1 h2
        have hr2 : 0 < (a :: t).length - 1 := by
          rw [hlen] at hr; omega
        rw [← h1]
        exact geti_take (a :: t) ((a :: t).length - 1) 0 hr2 (by simp)
  intro x hx
  obtain ⟨i, hi, he⟩ := mem_geti l x hx
  rw [hv, ← he]
  exact HP_root_min l hp i hi











theorem create_event_inv (s : VMState) (id t : Nat) (tr : Option Transact)
    (h : ClockInv s) :
    ClockInv (create_event s id (s.current_time + t) tr) := by
  constructor
  · exact heapPush_HP _ _ h.1
  · intro e he
    rcases heapPush_mem _ _ e he with h1 | h1
    · exact h.2 e h1
    · subst h1
      show s.current_time ≤ s.current_time + t
      omega

theorem create_event_WF (s : VMState) (id w : Nat) (tr : Option Transact)
    (h : EventsWF s) (hid : isSuspB s.instructions id = true) :
    EventsWF (create_event s id w tr) := by
  intro e he
  rcases heapPush_mem _ _ e he with h1 | h1
  · exact h e h1
  · subst h1
    exact hid

theorem vmRun_inv : ∀ fuel c s', vmRun fuel c = .ok s' →
    (ClockInv (callState c) →
      (callState c).current_time ≤ s'.current_time ∧ ClockInv s') ∧
    (EventsWF (callState c) → PreWF c → EventsWF s') := by
  intro fuel
  induction fuel with
  | zero => intro c s' h; exact VMRes.noConfusion h
  | succ fuel ih =>
    intro c s' h
    cases c with
    | gen s time =>
      unfold vmRun at h; dsimp only at h
      have hh := ih _ _ h
      constructor
      · intro hInv
        exact hh.1 (create_event_inv s s.current_instruction time none hInv)
      · intro hWF hPre
        exact hh.2 (create_event_WF s _ _ none hWF hPre) trivial
    | adv s time =>
      unfold vmRun at h; dsimp only at h
      have hh := ih _ _ h
      constructor
      · intro hInv
        exact hh.1
          (create_event_inv s s.current_instruction time s.current_transact hInv)
      · intro hWF hPre
        exact hh.2 (create_event_WF s _ _ s.current_transact hWF hPre) trivial
    | term s count =>
      unfold vmRun at h; dsimp only at h
      split at h
      · split at h
        · have hh := ih _ _ h
          exact ⟨fun hI => hh.1 hI, fun hW _ => hh.2 hW trivial⟩
        · injection h with h; subst h
          exact ⟨fun hI => ⟨le_refl _, hI⟩, fun hW _ => hW⟩
      · exact VMRes.noConfusion h
    | fromTo s start fin =>
      unfold vmRun at h; dsimp only at h
      have hh := ih _ _ h
      exact ⟨fun hI => hh.1 hI, fun hW _ => hh.2 hW trivial⟩
    | loop s fin =>
      unfold vmRun at h; dsimp only at h
      split at h
      · cases hr : vmRun fuel (.instr s) with
        | ok s1 =>
          rw [hr] at h; dsimp only at h
          have h1 := ih _ _ hr
          have h2 := ih _ _ h
          constructor
          · intro hInv
            have ha := h1.1 hInv
            have hb := h2.1 ha.2
            exact ⟨le_trans ha.1 hb.1, hb.2⟩
          · intro hWF hPre
            exact h2.2 (h1.2 hWF trivial) trivial
        | err e => rw [hr] at h; exact VMRes.noConfusion h
        | oom => rw [hr] at h; exact VMRes.noConfusion h
      · injection h with h; subst h
        exact ⟨fun hI => ⟨le_refl _, hI⟩, fun hW _ => hW⟩
    | proc s =>
      unfold vmRun at h; dsimp only at h
      split at h
      · cases hr : vmRun fuel (.instr s) with
        | ok s1 =>
          rw [hr] at h; dsimp only at h
          have h1 := ih _ _ hr
          have h2 := ih _ _ h
          constructor
          · intro hInv
            have ha := h1.1 hInv
            have hb := h2.1 ha.2
            exact ⟨le_trans ha.1 hb.1, hb.2⟩
          · intro hWF hPre
            exact h2.2 (h1.2 hWF trivial) trivial
        | err e => rw [hr] at h; exact VMRes.noConfusion h
        | oom => rw [hr] at h; exact VMRes.noConfusion h
      · injection h with h; subst h
        exact ⟨fun hI => ⟨le_refl _, hI⟩, fun hW _ => hW⟩
    | instr s =>
      unfold vmRun at h; dsimp only at h
      cases hg : s.instructions.get? s.current_instruction with
      | none => rw [hg] at h; exact VMRes.noConfusion h
      | some i =>
        rw [hg] at h
        cases i with
        | Generate b =>
          dsimp only at h
          cases hp : stack_pop_time s with
          | ok p =>
            obtain ⟨t1, s1⟩ := p
            rw [hp] at h; dsimp only at h
            have h1 := stack_pop_time_inv hp
            subst h1
            have hh := ih _ _ h
            constructor
            · intro hInv
              exact hh.1 hInv
            · intro hWF hPre
              exact hh.2 hWF
                (by show isSuspB s.instructions s.current_instruction = true
                    unfold isSuspB
                    rw [hg])
          | err e => rw [hp] at h; exact VMRes.noConfusion h
          | oom => rw [hp] at h; exact VMRes.noConfusion h
        | Advance b =>
          dsimp only at h
          cases hp : stack_pop_time s with
          | ok p =>
            obtain ⟨t1, s1⟩ := p
            rw [hp] at h; dsimp only at h
            have h1 := stack_pop_time_inv hp
            subst h1
            have hh := ih _ _ h
            constructor
            · intro hInv
              exact hh.1 hInv
            · intro hWF hPre
              exact hh.2 hWF
                (by show isSuspB s.instructions s.current_instruction = true
                    unfold isSuspB
                    rw [hg])
          | err e => rw [hp] at h; exact VMRes.noConfusion h
          | oom => rw [hp] at h; exact VMRes.noConfusion h
        | Terminate b =>
          dsimp only at h
          cases hp : stack_pop s with
          | ok p =>
            obtain ⟨v, s1⟩ := p
            rw [hp] at h; dsimp only at h
            cases hv : gpssToU32 v with
            | ok n =>
              rw [hv] at h; dsimp only at h
              have h1 := (stack_pop_inv hp).1
              subst h1
              have hh := ih _ _ h
              exact ⟨fun hI => hh.1 hI, fun hW _ => hh.2 hW trivial⟩
            | err e => rw [hv] at h; exact VMRes.noConfusion h
            | oom => rw [hv] at h; exact VMRes.noConfusion h
          | err e => rw [hp] at h; exact VMRes.noConfusion h
          | oom => rw [hp] at h; exact VMRes.noConfusion h
        | Print a =>
          dsimp only at h
          unfold print at h
          cases hm : s.memory.get? a with
          | some v =>
            rw [hm] at h; dsimp only at h
            injection h with h; subst h
            exact ⟨fun hI => ⟨le_refl _, hI⟩, fun hW _ => hW⟩
          | none => rw [hm] at h; exact VMRes.noConfusion h
        | PrintClock =>
          dsimp only at h
          unfold print_clock at h
          injection h with h; subst h
          exact ⟨fun hI => ⟨le_refl _, hI⟩, fun hW _ => hW⟩
        | Transfer t =>
          dsimp only at h
          injection h with h; subst h
          exact ⟨fun hI => ⟨le_refl _, hI⟩, fun hW _ => hW⟩
        | TestVar eg =>
          dsimp only at h
          cases hp : stack_pop s with
          | ok p =>
            obtain ⟨v, s1⟩ := p
            rw [hp] at h; dsimp only at h
            cases hv : gpssToBool v with
            | ok bb =>
              rw [hv] at h; dsimp only at h
              injection h with h; subst h
              have h1 := (stack_pop_inv hp).1
              subst h1
              cases bb with
              | true => exact ⟨fun hI => ⟨le_refl _, hI⟩, fun hW _ => hW⟩
              | false => exact ⟨fun hI => ⟨le_refl _, hI⟩, fun hW _ => hW⟩
            | err e => rw [hv] at h; exact VMRes.noConfusion h
            | oom => rw [hv] at h; exact VMRes.noConfusion h
          | err e => rw [hp] at h; exact VMRes.noConfusion h
          | oom => rw [hp] at h; exact VMRes.noConfusion h
        | SaveValue a =>
          dsimp only at h
          cases hp : stack_pop s with
          | ok p =>
            obtain ⟨v, s1⟩ := p
            rw [hp] at h; dsimp only at h
            have h1 := (stack_pop_inv hp).1
            unfold save_value at h
            split at h
            · injection h with h; subst h; subst h1
              exact ⟨fun hI => ⟨le_refl _, hI⟩, fun hW _ => hW⟩
            · split at h
              · injection h with h; subst h; subst h1
                exact ⟨fun hI => ⟨le_refl _, hI⟩, fun hW _ => hW⟩
              · exact VMRes.noConfusion h
          | err e => rw [hp] at h; exact VMRes.noConfusion h
          | oom => rw [hp] at h; exact VMRes.noConfusion h
        | Push a =>
          dsimp only at h
          unfold push at h
          cases hm : s.memory.get? a with
          | some v =>
            rw [hm] at h; dsimp only at h
            injection h with h; subst h
            exact ⟨fun hI => ⟨le_refl _, hI⟩, fun hW _ => hW⟩
          | none => rw [hm] at h; exact VMRes.noConfusion h
    | closest s =>
      unfold vmRun at h; dsimp only at h
      split at h
      · injection h with h; subst h
        exact ⟨fun hI => ⟨le_refl _, hI⟩, fun hW _ => hW⟩
      · rename_i e rest hpop
        have hme := heapPop_mem _ _ _ hpop
        split at h
        · exact VMRes.noConfusion h
        · rename_i i hgi
          cases i
          case Generate b =>
            dsimp only at h
            split at h
            · rename_i s2 hr
              have h1 := ih _ _ hr
              split at h
              · exact VMRes.noConfusion h
              · rename_i b2 hg2
                split at h
                · rename_i t2 s3 hp2
                  injection h with h; subst h
                  have h3 := stack_pop_time_inv hp2
                  subst h3
                  constructor
                  · intro hInv
                    have hmin := heapPop_min _ _ _ hInv.1 hpop
                    have hhp := heapPop_HP _ _ _ hInv.1 hpop
                    have hInv1 : HP rest ∧
                        ∀ x ∈ rest, e.wake_time ≤ x.wake_time :=
                      ⟨hhp, fun x hx => hmin x (hme.2 x hx)⟩
                    have ha := h1.1 hInv1
                    have hce := create_event_inv _ e.instruction_id t2 none ha.2
                    refine ⟨?_, hce⟩
                    have hse : s.current_time ≤ e.wake_time := hInv.2 e hme.1
                    have hb : e.wake_time ≤ s2.current_time := ha.1
                    show s.current_time ≤ s2.current_time
                    omega
                  · intro hWF hPre
                    have hWF1 : EventsWF
                        { s with current_time := e.wake_time
                                 current_transact := e.transact
                                 events := rest } :=
                      fun x hx => hWF x (hme.2 x hx)
                    have hWF2 := h1.2 hWF1 trivial
                    exact create_event_WF _ _ _ _ hWF2
                      (by unfold isSuspB; rw [hg2])
                · exact VMRes.noConfusion h
                · exact VMRes.noConfusion h
              · rename_i i2 hg2 hne
                injection h with h; subst h
                constructor
                · intro hInv
                  have hmin := heapPop_min _ _ _ hInv.1 hpop
                  have hhp := heapPop_HP _ _ _ hInv.1 hpop
                  have hInv1 : HP rest ∧
                      ∀ x ∈ rest, e.wake_time ≤ x.wake_time :=
                    ⟨hhp, fun x hx => hmin x (hme.2 x hx)⟩
                  have ha := h1.1 hInv1
                  have hse : s.current_time ≤ e.wake_time := hInv.2 e hme.1
                  have hb : e.wake_time ≤ s2.current_time := ha.1
                  exact ⟨by show s.current_time ≤ s2.current_time; omega, ha.2⟩
                · intro hWF hPre
                  exact h1.2 (fun x hx => hWF x (hme.2 x hx)) trivial
            · rename_i hne
              exact absurd h (hne s')
          case Advance b =>
            dsimp only at h
            split at h
            · rename_i s2 hr
              have h1 := ih _ _ hr
              split at h
              · exact VMRes.noConfusion h
              · rename_i b2 hg2
                split at h
                · rename_i t2 s3 hp2
                  injection h with h; subst h
                  have h3 := stack_pop_time_inv hp2
                  subst h3
                  constructor
                  · intro hInv
                    have hmin := heapPop_min _ _ _ hInv.1 hpop
                    have hhp := heapPop_HP _ _ _ hInv.1 hpop
                    have hInv1 : HP rest ∧
                        ∀ x ∈ rest, e.wake_time ≤ x.wake_time :=
                      ⟨hhp, fun x hx => hmin x (hme.2 x hx)⟩
                    have ha := h1.1 hInv1
                    have hce := create_event_inv _ e.instruction_id t2 none ha.2
                    refine ⟨?_, hce⟩
                    have hse : s.current_time ≤ e.wake_time := hInv.2 e hme.1
                    have hb : e.wake_time ≤ s2.current_time := ha.1
                    show s.current_time ≤ s2.current_time
                    omega
                  · intro hWF hPre
                    have hWF1 : EventsWF
                        { s with current_time := e.wake_time
                                 current_transact := e.transact
                                 events := rest } :=
                      fun x hx => hWF x (hme.2 x hx)
                    have hWF2 := h1.2 hWF1 trivial
                    exact create_event_WF _ _ _ _ hWF2
                      (by unfold isSuspB; rw [hg2])
                · exact VMRes.noConfusion h
                · exact VMRes.noConfusion h
              · rename_i i2 hg2 hne
                injection h with h; subst h
                constructor
                · intro hInv
                  have hmin := heapPop_min _ _ _ hInv.1 hpop
                  have hhp := heapPop_HP _ _ _ hInv.1 hpop
                  have hInv1 : HP rest ∧
                      ∀ x ∈ rest, e.wake_time ≤ x.wake_time :=
                    ⟨hhp, fun x hx => hmin x (hme.2 x hx)⟩
                  have ha := h1.1 hInv1
                  have hse : s.current_time ≤ e.wake_time := hInv.2 e hme.1
                  have hb : e.wake_time ≤ s2.current_time := ha.1
                  exact ⟨by show s.current_time ≤ s2.current_time; omega, ha.2⟩
                · intro hWF hPre
                  exact h1.2 (fun x hx => hWF x (hme.2 x hx)) trivial
            · rename_i hne
              exact absurd h (hne s')
          all_goals
            (dsimp only at h
             injection h with h
             subst h
             refine ⟨fun hInv => ?_, fun hWF _ => fun x hx => hWF x (hme.2 x hx)⟩
             have hmin := heapPop_min _ _ _ hInv.1 hpop
             have hhp := heapPop_HP _ _ _ hInv.1 hpop
             exact ⟨hInv.2 e hme.1, hhp, fun x hx => hmin x (hme.2 x hx)⟩)

/-- Claim C3 (confirmed): for every program, initial memory image and
RNG, the simulation clock is monotonically non-decreasing along every
trace.  Formally: a freshly built interpreter satisfies the clock
invariant (heap-ordered future-event set, all pending wake times at or
after the clock), every successful step of `process_instruction`,
`perform_closest` (the event dequeue) and `process` preserves the
invariant, and under the invariant none of them ever decreases
`current_time`. -/
theorem claim3_clock_monotone :
    (∀ instructions memory rng,
      ClockInv (build_interpreter instructions memory rng)) ∧
    (∀ fuel s s', ClockInv s → process_instruction fuel s = .ok s' →
      s.current_time ≤ s'.current_time ∧ ClockInv s') ∧
    (∀ fuel s s', ClockInv s → perform_closest fuel s = .ok s' →
      s.current_time ≤ s'.current_time ∧ ClockInv s') ∧
    (∀ fuel s s', ClockInv s → process fuel s = .ok s' →
      s.current_time ≤ s'.current_time ∧ ClockInv s') := by
  refine ⟨?_, ?_, ?_, ?_⟩
  · intro instrs mem rng
    refine ⟨fun i hi _ => ?_, fun e he => ?_⟩
    · simp [build_interpreter] at hi
    · simp [build_interpreter] at he
  · intro fuel s s' hInv hok
    exact (vmRun_inv fuel _ _ hok).1 hInv
  · intro fuel s s' hInv hok
    exact (vmRun_inv fuel _ _ hok).1 hInv
  · intro fuel s s' hInv hok
    exact (vmRun_inv fuel _ _ hok).1 hInv

/-- Witness for `claim3_clock_monotone` on a concrete step. -/
theorem claim3_witness :
    ClockInv c6S ∧
    (c6S.current_time ≤ c3X.current_time ∧ ClockInv c3X) :=
  have hInv : ClockInv c6S :=
    ⟨fun i hi _ => by simp [c6S] at hi, fun e he => by simp [c6S] at he⟩
  ⟨hInv, claim3_clock_monotone.2.1 2 c6S c3X hInv rfl⟩

/-- Claim C10 (confirmed): starting from a freshly built interpreter
(whose event queue is empty), every reachable state has only events
pointing at `Generate` or `Advance` instructions: the initial state is
trivially event-wellformed, every successful `process_instruction` or
`process` run preserves event-wellformedness, and consequently the
event the scheduler dequeues always references a suspending
instruction, so the defensive branch of `perform_closest` for other
instruction kinds is never taken. -/
theorem claim10_events_wellformed :
    (∀ instructions memory rng,
      EventsWF (build_interpreter instructions memory rng)) ∧
    (∀ fuel s s', EventsWF s → process_instruction fuel s = .ok s' →
      EventsWF s') ∧
    (∀ fuel s s', EventsWF s → process fuel s = .ok s' → EventsWF s') ∧
    (∀ (s : VMState) e rest, EventsWF s → heapPop s.events = some (e, rest) →
      isSuspB s.instructions e.instruction_id = true) := by
  refine ⟨?_, ?_, ?_, ?_⟩
  · intro instrs mem rng e he
    simp [build_interpreter] at he
  · intro fuel s s' hWF hok
    exact (vmRun_inv fuel _ _ hok).2 hWF trivial
  · intro fuel s s' hWF hok
    exact (vmRun_inv fuel _ _ hok).2 hWF trivial
  · intro s e rest hWF hpop
    exact hWF e (heapPop_mem _ _ _ hpop).1

/-- Witness for `claim10_events_wellformed` on a concrete state with a
pending `Generate` event. -/
theorem claim10_witness :
    EventsWF c4S ∧ isSuspB c4S.instructions 1 = true :=
  have hWF : EventsWF c4S := fun e he => by
    simp [c4S] at he
    subst he
    rfl
  ⟨hWF, claim10_events_wellformed.2.2.2 c4S ⟨1, 5, none⟩ [] hWF (by decide)⟩

end Gpss
